import Mathlib

/-!
Verification of the immutable audit-ledger subsystem of `8law_accountant`.

The repository persists the ledger in `backend/database/schema.sql`
(table `blockchain_ledger`) and plans its workflow in
`docs/blockchain_integration.md`.  The executable components
(BlockStore, BlockAppender, ChainVerifier, PrivateLedgerConnector,
AnchorScheduler) have no source under the repository; where a claim
depends on them they are modelled from the specification, as marked on
each definition.  Identifiers, hashes, timestamps and nonces are
modelled as natural numbers; the SHA-256 digest is idealized as an
injective (collision-free) deterministic function.
-/

namespace Ledger

/-- A row of the `blockchain_ledger` table (schema.sql, lines 90-109):
`block_id SERIAL PRIMARY KEY`, `entity_id`, `entity_type`, `data_hash`,
`previous_block_hash`, `timestamp`, `nonce`, `block_hash`.  UUIDs,
varchar hashes and timestamps are modelled as `Nat`. -/
structure Block where
  block_id : Nat
  entity_id : Nat
  entity_type : Nat
  data_hash : Nat
  previous_block_hash : Nat
  timestamp : Nat
  nonce : Nat
  block_hash : Nat
deriving DecidableEq, Repr

/-- Modelled from the spec: the genesis block's `previous_block_hash` is a
fixed well-known sentinel value. -/
def GENESIS_SENTINEL : Nat := 0

/-- Modelled from the spec: `Hasher.digest`, a deterministic
collision-resistant cryptographic hash.  Collision resistance is
idealized as injectivity; any injective function is a faithful model of
the ideal digest. -/
def digest (n : Nat) : Nat := n + 1

theorem digest_injective : Function.Injective digest := by
  intro a b h
  simpa [digest] using h

/-- Modelled from the spec: the canonical concatenation of all Block
fields except `block_hash` itself, encoded injectively via `Nat.pair`. -/
def canonicalPayload (id eid ety dh ph ts nc : Nat) : Nat :=
  Nat.pair id (Nat.pair eid (Nat.pair ety (Nat.pair dh
    (Nat.pair ph (Nat.pair ts nc)))))

/-- The block hash: digest over the canonical concatenation of all the
fields except `block_hash` (spec §3). -/
def blockHashOf (b : Block) : Nat :=
  digest (canonicalPayload b.block_id b.entity_id b.entity_type b.data_hash
    b.previous_block_hash b.timestamp b.nonce)

theorem canonicalPayload_injective
    {a1 a2 a3 a4 a5 a6 a7 b1 b2 b3 b4 b5 b6 b7 : Nat}
    (h : canonicalPayload a1 a2 a3 a4 a5 a6 a7 =
         canonicalPayload b1 b2 b3 b4 b5 b6 b7) :
    a1 = b1 ∧ a2 = b2 ∧ a3 = b3 ∧ a4 = b4 ∧ a5 = b5 ∧ a6 = b6 ∧ a7 = b7 := by
  simp only [canonicalPayload, Nat.pair_eq_pair] at h
  exact ⟨h.1, h.2.1, h.2.2.1, h.2.2.2.1, h.2.2.2.2.1, h.2.2.2.2.2.1,
    h.2.2.2.2.2.2⟩

/-- Two blocks with the same recomputed hash agree on every hashed field. -/
theorem blockHashOf_inj {b c : Block} (h : blockHashOf b = blockHashOf c) :
    b.block_id = c.block_id ∧ b.entity_id = c.entity_id ∧
    b.entity_type = c.entity_type ∧ b.data_hash = c.data_hash ∧
    b.previous_block_hash = c.previous_block_hash ∧
    b.timestamp = c.timestamp ∧ b.nonce = c.nonce :=
  canonicalPayload_injective (digest_injective h)

/-- Modelled from the spec: the BlockStore is durable append-only ordered
storage; modelled as the list of blocks in chain order. -/
abbrev Chain := List Block

/-- Modelled from the spec: BlockStore errors. -/
inductive StoreError
  | SequenceConflict
deriving DecidableEq, Repr

/-- Modelled from the spec: `lastBlockId()` (0 if empty). -/
def lastBlockId (c : Chain) : Nat :=
  ((c.getLast?).map Block.block_id).getD 0

/-- Modelled from the spec: the stored last block's `block_hash`, or the
genesis sentinel when the store is empty. -/
def lastHash (c : Chain) : Nat :=
  ((c.getLast?).map Block.block_hash).getD GENESIS_SENTINEL

/-- Modelled from the spec: `BlockStore.append` fails with
`SequenceConflict` if the supplied `block_id` is not exactly
`last_block_id + 1`, or if `previous_block_hash` does not equal the
stored last block's `block_hash`; otherwise it appends the block. -/
def append (c : Chain) (b : Block) : Except StoreError Chain :=
  if b.block_id = lastBlockId c + 1 ∧ b.previous_block_hash = lastHash c then
    .ok (c ++ [b])
  else
    .error .SequenceConflict

/-- Modelled from the spec: the input of one `seal` call — the entity,
its canonicalized snapshot, and the freshly drawn timestamp and nonce. -/
structure SealInput where
  entity_id : Nat
  entity_type : Nat
  snapshot : Nat
  timestamp : Nat
  nonce : Nat
deriving DecidableEq, Repr

/-- Modelled from the spec: BlockAppender builds the next block inside the
serialized critical section: `data_hash` is the digest of the canonical
snapshot, `block_id` is `lastBlockId + 1`, `previous_block_hash` is the
last stored hash (or sentinel), and `block_hash` is recomputed from all
the fields. -/
def mkBlock (c : Chain) (inp : SealInput) : Block :=
  let dh := digest inp.snapshot
  let id := lastBlockId c + 1
  let ph := lastHash c
  { block_id := id
    entity_id := inp.entity_id
    entity_type := inp.entity_type
    data_hash := dh
    previous_block_hash := ph
    timestamp := inp.timestamp
    nonce := inp.nonce
    block_hash := digest (canonicalPayload id inp.entity_id inp.entity_type
      dh ph inp.timestamp inp.nonce) }

/-- Modelled from the spec: `seal` builds the next block and appends it
(named `sealBlock` because `seal` is reserved in Lean). -/
def sealBlock (c : Chain) (inp : SealInput) : Except StoreError Chain :=
  append c (mkBlock c inp)

/-- Modelled from the spec: building a chain by a sequence of successful
seal operations starting from the empty store. -/
def buildChain (inps : List SealInput) : Chain :=
  inps.foldl (fun c inp => c ++ [mkBlock c inp]) []

/-- Modelled from the spec: kinds of verification violation. -/
inductive ViolationKind
  | HashMismatch
  | LinkMismatch
deriving DecidableEq, Repr

/-- Modelled from the spec: the verification report. -/
inductive VerificationResult
  | Ok
  | Violation (block_id : Nat) (kind : ViolationKind)
deriving DecidableEq, Repr

/-- Modelled from the spec: ChainVerifier.  For each block recompute
`block_hash` from its stored fields and compare to the stored value
(`HashMismatch` at that block on failure); then compare the recomputed
value against the next block's `previous_block_hash` (`LinkMismatch`
reported at the next block on failure). -/
def verifyBlocks : List Block → VerificationResult
  | [] => .Ok
  | b :: rest =>
    if blockHashOf b ≠ b.block_hash then
      .Violation b.block_id .HashMismatch
    else
      match rest with
      | [] => .Ok
      | b2 :: _ =>
        if b2.previous_block_hash ≠ blockHashOf b then
          .Violation b2.block_id .LinkMismatch
        else
          verifyBlocks rest

/-- Every stored block's recomputed hash matches its stored value. -/
def hashesOk (c : Chain) : Bool :=
  c.all (fun b => blockHashOf b == b.block_hash)

/-- Every stored block's `previous_block_hash` equals its immediate
predecessor's stored `block_hash`. -/
def linksOk : List Block → Bool
  | [] => true
  | [_] => true
  | b :: b2 :: rest =>
    (b2.previous_block_hash == b.block_hash) && linksOk (b2 :: rest)

/-- A chain is internally consistent and correctly linked. -/
def validChain (c : Chain) : Bool :=
  hashesOk c && linksOk c

/-- A state of the block table reachable through `BlockStore.append` from
the empty store. -/
inductive Reachable : Chain → Prop
  | nil : Reachable []
  | step (c : Chain) (b : Block) (c2 : Chain) :
      Reachable c → append c b = .ok c2 → Reachable c2

/-- A state of the block table produced by a sequence of successful seal
operations of the BlockAppender from the empty store. -/
inductive Sealed : Chain → Prop
  | nil : Sealed []
  | step (c : Chain) (inp : SealInput) :
      Sealed c → Sealed (c ++ [mkBlock c inp])

/-- Modelled from the spec: an AnchorRecord, recording one external
anchoring event over an inclusive block-id range. -/
structure AnchorRecord where
  range_start : Nat
  range_end : Nat
  batch_hash : Nat
  external_reference : Nat
  anchored_at : Nat
deriving DecidableEq, Repr

/-- Modelled from the spec: the digest over the ordered `block_hash`
values of the blocks in the inclusive id range `[s, e]` of the chain. -/
def batchHash (c : Chain) (s e : Nat) : Nat :=
  digest (((c.drop (s - 1)).take (e + 1 - s)).foldl
    (fun acc b => Nat.pair acc b.block_hash) 0)

/-- Modelled from the spec: the last AnchorRecord's `range_end` (0 if the
anchor table is empty): the chain is anchored up to this block id. -/
def lastAnchoredEnd (anchors : List AnchorRecord) : Nat :=
  ((anchors.getLast?).map AnchorRecord.range_end).getD 0

/-- Modelled from the spec: one timer tick of the AnchorScheduler.  The
unanchored suffix runs from just past the last AnchorRecord's `range_end`
up to `lastBlockId`.  If the suffix is empty the tick is a no-op.
Otherwise the batch digest is submitted through the
ExternalAnchorConnector, modelled by `connectorResult`: `some ref` on
success (an AnchorRecord covering exactly the suffix is persisted) and
`none` on failure (nothing is persisted; a later tick retries). -/
def tick (c : Chain) (anchors : List AnchorRecord)
    (connectorResult : Option Nat) (now : Nat) : List AnchorRecord :=
  if lastBlockId c ≤ lastAnchoredEnd anchors then anchors
  else
    match connectorResult with
    | none => anchors
    | some ref =>
      anchors ++
        [({ range_start := lastAnchoredEnd anchors + 1,
            range_end := lastBlockId c,
            batch_hash := batchHash c (lastAnchoredEnd anchors + 1)
              (lastBlockId c),
            external_reference := ref, anchored_at := now })]

/-- Anchor-table states reachable by scheduler ticks, each tick run
against a possibly different (grown) chain. -/
inductive AnchorReachable : List AnchorRecord → Prop
  | nil : AnchorReachable []
  | step (anchors : List AnchorRecord) (c : Chain) (res : Option Nat) (now : Nat) :
      AnchorReachable anchors → AnchorReachable (tick c anchors res now)

/-- The anchor ranges are contiguous after `e` and each is nonempty. -/
def contiguousFrom : Nat → List AnchorRecord → Bool
  | _, [] => true
  | e, a :: rest =>
    (a.range_start == e + 1) && decide (e + 1 ≤ a.range_end) &&
      contiguousFrom a.range_end rest

/-- Modelled from the spec: the permissioned internal ledger, as the list
of (block_id, block_hash) records in recording order. -/
abbrev PrivateLedger := List (Nat × Nat)

/-- Modelled from the spec: the error signalled by the
PrivateLedgerConnector. -/
inductive LedgerError
  | ConflictingSeal
deriving DecidableEq, Repr

/-- Modelled from the spec: `querySeal` returns the hash recorded for a
block id, or `none` (NotFound). -/
def querySeal (l : PrivateLedger) (id : Nat) : Option Nat :=
  (l.find? (fun r => r.1 == id)).map Prod.snd

/-- Modelled from the spec: `recordSeal` — recording the same block id
twice with the same hash is a no-op; recording a different hash for an
already-recorded block id signals `ConflictingSeal` and leaves the
ledger unchanged. -/
def recordSeal (l : PrivateLedger) (id h : Nat) :
    Except LedgerError PrivateLedger :=
  match querySeal l id with
  | some h0 => if h0 = h then .ok l else .error .ConflictingSeal
  | none => .ok (l ++ [(id, h)])

/-- A concrete seal input used to evaluate the theorems on a small chain. -/
def inpA : SealInput :=
  { entity_id := 1, entity_type := 0, snapshot := 10, timestamp := 1, nonce := 7 }

/-- A second concrete seal input. -/
def inpB : SealInput :=
  { entity_id := 2, entity_type := 1, snapshot := 20, timestamp := 2, nonce := 9 }

/-- The first block of the concrete sample chain. -/
def block1 : Block := mkBlock [] inpA

/-- The second block of the concrete sample chain. -/
def block2 : Block := mkBlock [block1] inpB

/-- A concrete block whose `block_id` is out of sequence for the empty
store. -/
def blockBad : Block :=
  { block_id := 5, entity_id := 0, entity_type := 0, data_hash := 0,
    previous_block_hash := 3, timestamp := 0, nonce := 0, block_hash := 0 }

/-- A concrete block agreeing with `blockN2` on every hashed field except
the nonce. -/
def blockN1 : Block :=
  { block_id := 4, entity_id := 8, entity_type := 1, data_hash := 6,
    previous_block_hash := 3, timestamp := 5, nonce := 1, block_hash := 0 }

/-- A concrete block agreeing with `blockN1` on every hashed field except
the nonce. -/
def blockN2 : Block :=
  { block_id := 4, entity_id := 8, entity_type := 1, data_hash := 6,
    previous_block_hash := 3, timestamp := 5, nonce := 2, block_hash := 0 }

/-- The ON DELETE referential action of a foreign key in schema.sql
(`ON DELETE CASCADE` where declared, PostgreSQL's default NO ACTION
otherwise). -/
inductive RefAction
  | NoAction
  | Cascade
deriving DecidableEq, Repr

/-- A foreign-key declaration of schema.sql. -/
structure ForeignKey where
  column : String
  refTable : String
  onDelete : RefAction
deriving DecidableEq, Repr

/-- A table declaration of schema.sql: name, primary-key column, all
columns in order, columns carrying a UNIQUE constraint besides the
primary key, and foreign keys. -/
structure Table where
  name : String
  primaryKey : String
  columns : List String
  uniqueCols : List String
  foreignKeys : List ForeignKey
deriving DecidableEq, Repr

/-- schema.sql table 1: `users`. -/
def usersTable : Table :=
  { name := "users", primaryKey := "id",
    columns := ["id", "email", "password_hash", "legal_first_name",
      "legal_last_name", "created_at", "updated_at"],
    uniqueCols := ["email"], foreignKeys := [] }

/-- schema.sql table 2: `tax_returns` (`user_id REFERENCES users(id)
ON DELETE CASCADE`). -/
def taxReturnsTable : Table :=
  { name := "tax_returns", primaryKey := "id",
    columns := ["id", "user_id", "tax_year", "province", "status",
      "total_income", "taxable_income", "total_tax_payable", "created_at"],
    uniqueCols := [],
    foreignKeys :=
      [({ column := "user_id", refTable := "users",
          onDelete := .Cascade })] }

/-- schema.sql table 3: `notice_of_assessments` (`user_id REFERENCES
users(id) ON DELETE CASCADE`). -/
def noticeOfAssessmentsTable : Table :=
  { name := "notice_of_assessments", primaryKey := "id",
    columns := ["id", "user_id", "tax_year", "rrsp_deduction_limit",
      "unused_rrsp_contributions", "upload_date"],
    uniqueCols := [],
    foreignKeys :=
      [({ column := "user_id", refTable := "users",
          onDelete := .Cascade })] }

/-- schema.sql table 4: `income_slips` (`tax_return_id REFERENCES
tax_returns(id) ON DELETE CASCADE`). -/
def incomeSlipsTable : Table :=
  { name := "income_slips", primaryKey := "id",
    columns := ["id", "tax_return_id", "slip_type", "issuer_name",
      "raw_data", "taxable_amount_extracted", "created_at"],
    uniqueCols := [],
    foreignKeys :=
      [({ column := "tax_return_id", refTable := "tax_returns",
          onDelete := .Cascade })] }

/-- schema.sql table 5: `audit_logs` (`tax_return_id REFERENCES
tax_returns(id)` with no ON DELETE action). -/
def auditLogsTable : Table :=
  { name := "audit_logs", primaryKey := "id",
    columns := ["id", "tax_return_id", "action", "details", "timestamp"],
    uniqueCols := [],
    foreignKeys :=
      [({ column := "tax_return_id", refTable := "tax_returns",
          onDelete := .NoAction })] }

/-- schema.sql table 6: `blockchain_ledger` (`block_hash VARCHAR(64)
NOT NULL UNIQUE`; no foreign keys — `entity_id` carries no REFERENCES
clause). -/
def blockchainLedgerTable : Table :=
  { name := "blockchain_ledger", primaryKey := "block_id",
    columns := ["block_id", "entity_id", "entity_type", "data_hash",
      "previous_block_hash", "timestamp", "nonce", "block_hash"],
    uniqueCols := ["block_hash"], foreignKeys := [] }

/-- The persisted layout of schema.sql: its tables and its explicit
indexes as (table, column) pairs. -/
structure Schema where
  tables : List Table
  indexes : List (String × String)
deriving DecidableEq, Repr

/-- The whole of backend/database/schema.sql: the six tables and the one
index `idx_chain_order ON blockchain_ledger(block_id)`. -/
def schema : Schema :=
  { tables := [usersTable, taxReturnsTable, noticeOfAssessmentsTable,
      incomeSlipsTable, auditLogsTable, blockchainLedgerTable],
    indexes := [("blockchain_ledger", "block_id")] }

/-- A table matching the spec's anchor-table layout: keyed by
`range_start` with columns matching the AnchorRecord fields. -/
def isAnchorTable (t : Table) : Bool :=
  t.primaryKey == "range_start" &&
    (["range_start", "range_end", "batch_hash", "external_reference",
      "anchored_at"].all (fun c => t.columns.contains c))

/-- A row of `users` (schema.sql): data columns are carried as opaque
`Nat` values. -/
structure UserRow where
  id : Nat
  email : Nat
  password_hash : Nat
  legal_first_name : Nat
  legal_last_name : Nat
  created_at : Nat
  updated_at : Nat
deriving DecidableEq, Repr

/-- A row of `tax_returns` (schema.sql); the nullable foreign-key column
`user_id` is an `Option`. -/
structure TaxReturnRow where
  id : Nat
  user_id : Option Nat
  tax_year : Nat
  province : Nat
  status : Nat
  total_income : Nat
  taxable_income : Nat
  total_tax_payable : Nat
  created_at : Nat
deriving DecidableEq, Repr

/-- A row of `notice_of_assessments` (schema.sql). -/
structure NoticeOfAssessmentRow where
  id : Nat
  user_id : Option Nat
  tax_year : Nat
  rrsp_deduction_limit : Nat
  unused_rrsp_contributions : Nat
  upload_date : Nat
deriving DecidableEq, Repr

/-- A row of `income_slips` (schema.sql). -/
structure IncomeSlipRow where
  id : Nat
  tax_return_id : Option Nat
  slip_type : Nat
  issuer_name : Nat
  raw_data : Nat
  taxable_amount_extracted : Nat
  created_at : Nat
deriving DecidableEq, Repr

/-- A row of `audit_logs` (schema.sql). -/
structure AuditLogRow where
  id : Nat
  tax_return_id : Option Nat
  action : Nat
  details : Nat
  timestamp : Nat
deriving DecidableEq, Repr

/-- A database state: one row list per table of schema.sql; the
`blockchain_ledger` rows are `Block`s. -/
structure Db where
  users : List UserRow
  tax_returns : List TaxReturnRow
  notice_of_assessments : List NoticeOfAssessmentRow
  income_slips : List IncomeSlipRow
  audit_logs : List AuditLogRow
  blockchain_ledger : List Block
deriving DecidableEq, Repr

/-- `DELETE FROM users WHERE id = uid` under the foreign keys declared in
schema.sql: rows of `tax_returns` and `notice_of_assessments` with
`user_id = uid` are cascade-deleted, and rows of `income_slips`
referencing a cascade-deleted return are cascade-deleted in turn;
`audit_logs.tax_return_id` has no ON DELETE action, so the delete is
rejected (`none`) when an audit log references a to-be-deleted return;
`blockchain_ledger` carries no foreign key and is never touched. -/
def deleteUser (db : Db) (uid : Nat) : Option Db :=
  let deadReturns := db.tax_returns.filter (fun r => r.user_id == some uid)
  if db.audit_logs.any (fun a =>
      deadReturns.any (fun r => a.tax_return_id == some r.id)) then
    none
  else
    some { users := db.users.filter (fun u => !(u.id == uid)),
           tax_returns := db.tax_returns.filter
             (fun r => !(r.user_id == some uid)),
           notice_of_assessments := db.notice_of_assessments.filter
             (fun r => !(r.user_id == some uid)),
           income_slips := db.income_slips.filter (fun s =>
             !(deadReturns.any (fun r => s.tax_return_id == some r.id))),
           audit_logs := db.audit_logs,
           blockchain_ledger := db.blockchain_ledger }

/-- A concrete database with one user owning one return, one assessment
and one slip, an empty audit log, and one sealed block. -/
def dbW : Db :=
  { users :=
      [({ id := 1, email := 0, password_hash := 0,
          legal_first_name := 0, legal_last_name := 0, created_at := 0,
          updated_at := 0 })],
    tax_returns :=
      [({ id := 10, user_id := some 1, tax_year := 2024,
          province := 0, status := 0, total_income := 0, taxable_income := 0,
          total_tax_payable := 0, created_at := 0 })],
    notice_of_assessments :=
      [({ id := 20, user_id := some 1,
          tax_year := 2023, rrsp_deduction_limit := 0,
          unused_rrsp_contributions := 0, upload_date := 0 })],
    income_slips :=
      [({ id := 30, tax_return_id := some 10, slip_type := 0,
          issuer_name := 0, raw_data := 0, taxable_amount_extracted := 0,
          created_at := 0 })],
    audit_logs := [],
    blockchain_ledger := [block1] }

/-- The database `dbW` after `deleteUser dbW 1`. -/
def dbWafter : Db :=
  { users := [], tax_returns := [], notice_of_assessments := [],
    income_slips := [], audit_logs := [], blockchain_ledger := [block1] }

theorem append_ok_iff {c : Chain} {b : Block} {c2 : Chain} :
    append c b = .ok c2 ↔
      b.block_id = lastBlockId c + 1 ∧ b.previous_block_hash = lastHash c ∧
      c2 = c ++ [b] := by
  unfold append
  split
  · rename_i h
    constructor
    · intro he
      exact ⟨h.1, h.2, (Except.ok.inj he).symm⟩
    · intro he
      rw [he.2.2]
  · rename_i h
    constructor
    · intro he
      exact absurd he (by simp)
    · intro he
      exact absurd ⟨he.1, he.2.1⟩ h

theorem append_error_iff {c : Chain} {b : Block} :
    append c b = .error .SequenceConflict ↔
      ¬ (b.block_id = lastBlockId c + 1 ∧ b.previous_block_hash = lastHash c) := by
  unfold append
  split <;> simp_all

theorem lastBlockId_concat (c : Chain) (b : Block) :
    lastBlockId (c ++ [b]) = b.block_id := by
  simp [lastBlockId, List.getLast?_concat]

theorem lastHash_concat (c : Chain) (b : Block) :
    lastHash (c ++ [b]) = b.block_hash := by
  simp [lastHash, List.getLast?_concat]

theorem lastHash_eq_get {c : Chain} (h : c ≠ []) (hlt : c.length - 1 < c.length) :
    lastHash c = (c.get ⟨c.length - 1, hlt⟩).block_hash := by
  rw [lastHash, List.getLast?_eq_getLast c h]
  simp [List.getLast_eq_getElem]

/-- The append-reachable states: the stored ids are `1, 2, …, n` in order,
`lastBlockId` is the length, and every non-genesis block links to its
immediate predecessor's stored `block_hash`. -/
theorem reachable_invariant {c : Chain} (hc : Reachable c) :
    lastBlockId c = c.length ∧
    (∀ i (h : i < c.length), (c.get ⟨i, h⟩).block_id = i + 1) ∧
    (∀ i (h : i + 1 < c.length),
      (c.get ⟨i + 1, h⟩).previous_block_hash =
        (c.get ⟨i, by omega⟩).block_hash) := by
  induction hc with
  | nil => simp [lastBlockId]
  | step c b c2 hr happ ih =>
    obtain ⟨hid, hph, hc2⟩ := append_ok_iff.mp happ
    subst hc2
    obtain ⟨ihlast, ihids, ihlinks⟩ := ih
    refine ⟨?_, ?_, ?_⟩
    · rw [lastBlockId_concat, hid, ihlast]
      simp
    · intro i h
      rcases Nat.lt_or_ge i c.length with hi | hi
      · simp only [List.get_eq_getElem, List.getElem_append_left hi]
        exact ihids i hi
      · have hi2 : i = c.length := by
          simp only [List.length_append, List.length_singleton] at h
          omega
        simp only [List.get_eq_getElem, List.getElem_concat_length c b i hi2]
        rw [hid, ihlast, hi2]
    · intro i h
      rcases Nat.lt_or_ge (i + 1) c.length with hi | hi
      · have hi0 : i < c.length := by omega
        simp only [List.get_eq_getElem, List.getElem_append_left hi,
          List.getElem_append_left hi0]
        exact ihlinks i hi
      · have hi2 : i + 1 = c.length := by
          simp only [List.length_append, List.length_singleton] at h
          omega
        have hi0 : i < c.length := by omega
        have hne : c ≠ [] := by
          intro hnil
          rw [hnil] at hi0
          simp at hi0
        simp only [List.get_eq_getElem, List.getElem_concat_length c b (i + 1) hi2,
          List.getElem_append_left hi0]
        rw [hph, lastHash_eq_get hne (by omega)]
        have hidx : c.length - 1 = i := by omega
        simp only [List.get_eq_getElem, hidx]

theorem mkBlock_hash (c : Chain) (inp : SealInput) :
    blockHashOf (mkBlock c inp) = (mkBlock c inp).block_hash := rfl

theorem mkBlock_append (c : Chain) (inp : SealInput) :
    append c (mkBlock c inp) = .ok (c ++ [mkBlock c inp]) :=
  append_ok_iff.mpr ⟨rfl, rfl, rfl⟩

theorem sealed_reachable {c : Chain} (hc : Sealed c) : Reachable c := by
  induction hc with
  | nil => exact .nil
  | step c inp hs ih => exact .step c (mkBlock c inp) _ ih (mkBlock_append c inp)

theorem hashesOk_append {l1 l2 : List Block} :
    hashesOk (l1 ++ l2) = (hashesOk l1 && hashesOk l2) := by
  simp [hashesOk, List.all_append]

theorem sealed_hashesOk {c : Chain} (hc : Sealed c) : hashesOk c = true := by
  induction hc with
  | nil => rfl
  | step c inp hs ih =>
    rw [hashesOk_append, ih]
    simp [hashesOk, mkBlock_hash c inp]

theorem lastHash_cons_cons (x y : Block) (l : List Block) :
    lastHash (x :: y :: l) = lastHash (y :: l) := by
  simp [lastHash, List.getLast?_cons_cons]

theorem linksOk_concat : ∀ (c : Chain) (b : Block),
    linksOk c = true → b.previous_block_hash = lastHash c →
    linksOk (c ++ [b]) = true
  | [], _, _, _ => rfl
  | [x], b, _, hb => by
    simp only [List.singleton_append, linksOk, Bool.and_eq_true]
    refine ⟨?_, trivial⟩
    simp [hb, lastHash]
  | x :: y :: rest, b, hl, hb => by
    simp only [List.cons_append, linksOk, Bool.and_eq_true] at hl ⊢
    refine ⟨hl.1, ?_⟩
    have := linksOk_concat (y :: rest) b hl.2 (by rw [hb, lastHash_cons_cons])
    simpa using this

theorem sealed_linksOk {c : Chain} (hc : Sealed c) : linksOk c = true := by
  induction hc with
  | nil => rfl
  | step c inp hs ih => exact linksOk_concat c (mkBlock c inp) ih rfl

theorem sealed_validChain {c : Chain} (hc : Sealed c) : validChain c = true := by
  simp [validChain, sealed_hashesOk hc, sealed_linksOk hc]

theorem sealed_buildChain (inps : List SealInput) : Sealed (buildChain inps) := by
  suffices h : ∀ c, Sealed c →
      Sealed (inps.foldl (fun c inp => c ++ [mkBlock c inp]) c) from h [] .nil
  induction inps with
  | nil => intro c hc; exact hc
  | cons i is ih =>
    intro c hc
    exact ih _ (.step c i hc)

theorem verifyBlocks_cons_cons (b b2 : Block) (rest : List Block) :
    verifyBlocks (b :: b2 :: rest) =
      if blockHashOf b ≠ b.block_hash then .Violation b.block_id .HashMismatch
      else if b2.previous_block_hash ≠ blockHashOf b then
        .Violation b2.block_id .LinkMismatch
      else verifyBlocks (b2 :: rest) := rfl

theorem verifyBlocks_singleton (b : Block) :
    verifyBlocks [b] =
      if blockHashOf b ≠ b.block_hash then .Violation b.block_id .HashMismatch
      else .Ok := rfl

theorem verify_ok_iff :
    ∀ c : Chain, verifyBlocks c = .Ok ↔ (hashesOk c = true ∧ linksOk c = true)
  | [] => by simp [verifyBlocks, hashesOk, linksOk]
  | [b] => by
    rw [verifyBlocks_singleton]
    by_cases h1 : blockHashOf b = b.block_hash <;>
      simp [hashesOk, linksOk, h1]
  | b :: b2 :: rest => by
    have ih := verify_ok_iff (b2 :: rest)
    rw [verifyBlocks_cons_cons]
    by_cases h1 : blockHashOf b = b.block_hash
    · by_cases h2 : b2.previous_block_hash = blockHashOf b
      · rw [h1] at h2
        simp [h1, h2, hashesOk, linksOk, ih, Bool.and_eq_true]
      · rw [h1] at h2
        simp [h1, h2, hashesOk, linksOk]
    · simp [h1, hashesOk, linksOk]

theorem hashesOk_iff {c : Chain} :
    hashesOk c = true ↔ ∀ b ∈ c, blockHashOf b = b.block_hash := by
  simp [hashesOk, List.all_eq_true]

theorem linksOk_prefix_concat : ∀ (xs : List Block) (b : Block) (ys : List Block),
    linksOk (xs ++ b :: ys) = true → linksOk (xs ++ [b]) = true
  | [], b, ys, _ => rfl
  | [x], b, ys, h => by
    simp only [List.singleton_append, linksOk, Bool.and_eq_true] at h ⊢
    exact ⟨h.1, trivial⟩
  | x :: y :: rest, b, ys, h => by
    simp only [List.cons_append, linksOk, Bool.and_eq_true] at h ⊢
    refine ⟨h.1, ?_⟩
    have := linksOk_prefix_concat (y :: rest) b ys (by simpa using h.2)
    simpa using this

theorem linksOk_concat_eq : ∀ (xs : List Block) (b1 b2 : Block),
    b1.previous_block_hash = b2.previous_block_hash →
    linksOk (xs ++ [b1]) = linksOk (xs ++ [b2])
  | [], _, _, _ => rfl
  | [x], b1, b2, h => by simp [linksOk, h]
  | x :: y :: rest, b1, b2, h => by
    simp only [List.cons_append, linksOk, List.append_eq]
    have := linksOk_concat_eq (y :: rest) b1 b2 h
    simp only [List.cons_append] at this
    rw [this]

/-- If a valid prefix is followed by a block failing its own hash check
(and correctly linked to the prefix), verification reports `HashMismatch`
at exactly that block. -/
theorem verify_hash_tamper (alt : Block) (rest : List Block)
    (halt : blockHashOf alt ≠ alt.block_hash) :
    ∀ xs : List Block, hashesOk xs = true → linksOk (xs ++ [alt]) = true →
    verifyBlocks (xs ++ alt :: rest) = .Violation alt.block_id .HashMismatch := by
  intro xs
  induction xs with
  | nil =>
    intro _ _
    cases rest with
    | nil => rw [List.nil_append, verifyBlocks_singleton, if_pos halt]
    | cons r rs => rw [List.nil_append, verifyBlocks_cons_cons, if_pos halt]
  | cons x xs2 ih =>
    intro hh hl
    have hx : blockHashOf x = x.block_hash :=
      hashesOk_iff.mp hh x (by simp)
    have hh2 : hashesOk xs2 = true := by
      simp only [hashesOk, List.all_cons, Bool.and_eq_true] at hh
      exact hh.2
    cases xs2 with
    | nil =>
      have hlx : alt.previous_block_hash = x.block_hash := by
        simp only [List.singleton_append, linksOk, Bool.and_eq_true,
          beq_iff_eq] at hl
        exact hl.1
      rw [List.cons_append, List.nil_append, verifyBlocks_cons_cons,
        if_neg (not_not_intro hx), if_neg (not_not_intro (by rw [hlx, hx]))]
      exact ih rfl rfl
    | cons y ys =>
      have hly : y.previous_block_hash = x.block_hash := by
        simp only [List.cons_append, linksOk, Bool.and_eq_true,
          beq_iff_eq] at hl
        exact hl.1
      have hl2 : linksOk ((y :: ys) ++ [alt]) = true := by
        simp only [List.cons_append, linksOk, Bool.and_eq_true] at hl ⊢
        exact hl.2
      rw [List.cons_append, List.cons_append, verifyBlocks_cons_cons,
        if_neg (not_not_intro hx), if_neg (not_not_intro (by rw [hly, hx]))]
      have := ih hh2 hl2
      simpa using this

/-- If a valid prefix ending in block `p` is followed by a block whose
`previous_block_hash` does not match `p.block_hash`, verification reports
`LinkMismatch` at that following block. -/
theorem verify_link_tamper (p alt : Block) (rest : List Block)
    (hlink : alt.previous_block_hash ≠ p.block_hash) :
    ∀ xs : List Block, hashesOk (xs ++ [p]) = true → linksOk (xs ++ [p]) = true →
    verifyBlocks (xs ++ p :: alt :: rest) = .Violation alt.block_id .LinkMismatch := by
  intro xs
  induction xs with
  | nil =>
    intro hh _
    have hp : blockHashOf p = p.block_hash :=
      hashesOk_iff.mp hh p (by simp)
    rw [List.nil_append, verifyBlocks_cons_cons, if_neg (not_not_intro hp),
      if_pos (by rw [hp]; exact hlink)]
  | cons x xs2 ih =>
    intro hh hl
    have hx : blockHashOf x = x.block_hash :=
      hashesOk_iff.mp hh x (by simp)
    have hh2 : hashesOk (xs2 ++ [p]) = true := by
      simp only [List.cons_append, hashesOk, List.all_cons,
        Bool.and_eq_true] at hh
      simp only [hashesOk]
      exact hh.2
    cases xs2 with
    | nil =>
      have hlx : p.previous_block_hash = x.block_hash := by
        simp only [List.singleton_append, linksOk, Bool.and_eq_true,
          beq_iff_eq] at hl
        exact hl.1
      rw [List.cons_append, List.nil_append, verifyBlocks_cons_cons,
        if_neg (not_not_intro hx), if_neg (not_not_intro (by rw [hlx, hx]))]
      exact ih hh2 rfl
    | cons y ys =>
      have hly : y.previous_block_hash = x.block_hash := by
        simp only [List.cons_append, linksOk, Bool.and_eq_true,
          beq_iff_eq] at hl
        exact hl.1
      have hl2 : linksOk ((y :: ys) ++ [p]) = true := by
        simp only [List.cons_append, linksOk, Bool.and_eq_true] at hl ⊢
        exact hl.2
      rw [List.cons_append, List.cons_append, verifyBlocks_cons_cons,
        if_neg (not_not_intro hx), if_neg (not_not_intro (by rw [hly, hx]))]
      have := ih hh2 hl2
      simpa using this

/-- A single in-place alteration of a block that keeps its `block_id`,
`previous_block_hash` and stored `block_hash` but changes its recomputed
hash is detected as `HashMismatch` at exactly that block. -/
theorem verify_tamper_field (xs : List Block) (b alt : Block) (ys : List Block)
    (hv : validChain (xs ++ b :: ys) = true)
    (hid : alt.block_id = b.block_id)
    (hprev : alt.previous_block_hash = b.previous_block_hash)
    (hbh : alt.block_hash = b.block_hash)
    (hne : blockHashOf alt ≠ blockHashOf b) :
    verifyBlocks (xs ++ alt :: ys) = .Violation b.block_id .HashMismatch := by
  simp only [validChain, Bool.and_eq_true] at hv
  obtain ⟨hh, hl⟩ := hv
  have hhb : blockHashOf b = b.block_hash := hashesOk_iff.mp hh b (by simp)
  have hhxs : hashesOk xs = true := by
    rw [hashesOk_append, Bool.and_eq_true] at hh
    exact hh.1
  have hlxs : linksOk (xs ++ [alt]) = true := by
    rw [linksOk_concat_eq xs alt b hprev]
    exact linksOk_prefix_concat xs b ys hl
  have halt : blockHashOf alt ≠ alt.block_hash := by
    rw [hbh, ← hhb]
    exact hne
  have := verify_hash_tamper alt ys halt xs hhxs hlxs
  rw [← hid]
  exact this

/-- C1: every reachable state of the block table satisfies the chaining
invariant — each block after the first carries the `block_hash` of its
immediate predecessor as its `previous_block_hash` — because `append`
fails with `SequenceConflict` exactly when the supplied `block_id` is not
`lastBlockId + 1` or the supplied `previous_block_hash` differs from the
stored last block's `block_hash`. -/
theorem C1_chaining_invariant :
    (∀ (c : Chain) (b : Block),
      append c b = .error .SequenceConflict ↔
        ¬ (b.block_id = lastBlockId c + 1 ∧
           b.previous_block_hash = lastHash c)) ∧
    (∀ c : Chain, Reachable c → ∀ i (h : i + 1 < c.length),
      (c.get ⟨i + 1, h⟩).previous_block_hash =
        (c.get ⟨i, by omega⟩).block_hash) :=
  ⟨fun _ _ => append_error_iff, fun _ hc => (reachable_invariant hc).2.2⟩

/-- Witness for C1: appending an out-of-sequence block to the empty store
fails with `SequenceConflict`, and in the concrete two-block sealed chain
block 2 links to block 1's hash. -/
theorem C1_chaining_invariant_witness :
    append [] blockBad = .error .SequenceConflict ∧
    ((buildChain [inpA, inpB]).get ⟨1, by decide⟩).previous_block_hash =
      ((buildChain [inpA, inpB]).get ⟨0, by decide⟩).block_hash :=
  ⟨(C1_chaining_invariant.1 [] blockBad).mpr (by decide),
   C1_chaining_invariant.2 (buildChain [inpA, inpB])
     (sealed_reachable (sealed_buildChain [inpA, inpB])) 0 (by decide)⟩

/-- C5: in every reachable state of the block table the `block_id`
sequence is exactly `1, 2, …, n` — it starts at 1 and increases by
exactly 1, with no gaps and no duplicates — and each block's
`previous_block_hash` references its immediate predecessor.  Concurrent
seal attempts are serialized through `append`, whose reachable states
these are. -/
theorem C5_monotonic_sequencing :
    ∀ c : Chain, Reachable c →
      (∀ i (h : i < c.length), (c.get ⟨i, h⟩).block_id = i + 1) ∧
      (∀ i (h : i + 1 < c.length),
        (c.get ⟨i + 1, h⟩).previous_block_hash =
          (c.get ⟨i, by omega⟩).block_hash) :=
  fun _ hc => ⟨(reachable_invariant hc).2.1, (reachable_invariant hc).2.2⟩

/-- Witness for C5: in the concrete two-block sealed chain the second
block has `block_id = 2`. -/
theorem C5_monotonic_sequencing_witness :
    ((buildChain [inpA, inpB]).get ⟨1, by decide⟩).block_id = 2 :=
  (C5_monotonic_sequencing (buildChain [inpA, inpB])
    (sealed_reachable (sealed_buildChain [inpA, inpB]))).1 1 (by decide)

/-- C3: verification over the full range returns `Ok` after every
sequence of successful seals from the empty chain; in general `verify`
returns `Ok` exactly when every block's recomputed `block_hash` matches
its stored value and every link matches, and otherwise it returns a
`Violation (block_id, kind)` with `kind` either `HashMismatch` or
`LinkMismatch`. -/
theorem C3_verify_complete :
    (∀ inps : List SealInput, verifyBlocks (buildChain inps) = .Ok) ∧
    (∀ c : Chain, verifyBlocks c = .Ok ↔ validChain c = true) ∧
    (∀ c : Chain, verifyBlocks c = .Ok ∨
      ∃ i k, verifyBlocks c = .Violation i k ∧
        (k = .HashMismatch ∨ k = .LinkMismatch)) :=
  ⟨fun inps => (verify_ok_iff _).mpr
      ⟨sealed_hashesOk (sealed_buildChain inps),
       sealed_linksOk (sealed_buildChain inps)⟩,
   fun c => (verify_ok_iff c).trans (by simp [validChain]),
   fun c =>
     match verifyBlocks c with
     | .Ok => .inl rfl
     | .Violation i k => .inr ⟨i, k, rfl, by cases k <;> simp⟩⟩

/-- Witness for C3: the concrete two-seal chain verifies `Ok`. -/
theorem C3_verify_complete_witness :
    verifyBlocks (buildChain [inpA, inpB]) = .Ok :=
  C3_verify_complete.1 [inpA, inpB]

/-- C2: in a valid stored chain, altering a single sealed block's stored
`data_hash`, `nonce` or `timestamp` makes `verify` return `Violation` at
exactly that block's id with kind `HashMismatch`; altering a block's
`previous_block_hash` so it no longer matches its predecessor's
`block_hash` makes `verify` report `LinkMismatch` at that block. -/
theorem C2_tamper_detection :
    (∀ (xs : List Block) (b : Block) (ys : List Block) (v : Nat),
      validChain (xs ++ b :: ys) = true → v ≠ b.data_hash →
      verifyBlocks (xs ++ { b with data_hash := v } :: ys) =
        .Violation b.block_id .HashMismatch) ∧
    (∀ (xs : List Block) (b : Block) (ys : List Block) (v : Nat),
      validChain (xs ++ b :: ys) = true → v ≠ b.nonce →
      verifyBlocks (xs ++ { b with nonce := v } :: ys) =
        .Violation b.block_id .HashMismatch) ∧
    (∀ (xs : List Block) (b : Block) (ys : List Block) (v : Nat),
      validChain (xs ++ b :: ys) = true → v ≠ b.timestamp →
      verifyBlocks (xs ++ { b with timestamp := v } :: ys) =
        .Violation b.block_id .HashMismatch) ∧
    (∀ (xs : List Block) (p b : Block) (ys : List Block) (v : Nat),
      validChain (xs ++ p :: b :: ys) = true → v ≠ p.block_hash →
      verifyBlocks (xs ++ p :: { b with previous_block_hash := v } :: ys) =
        .Violation b.block_id .LinkMismatch) := by
  refine ⟨?_, ?_, ?_, ?_⟩
  · intro xs b ys v hv hne
    exact verify_tamper_field xs b _ ys hv rfl rfl rfl
      (fun heq => hne ((blockHashOf_inj heq).2.2.2.1))
  · intro xs b ys v hv hne
    exact verify_tamper_field xs b _ ys hv rfl rfl rfl
      (fun heq => hne ((blockHashOf_inj heq).2.2.2.2.2.2))
  · intro xs b ys v hv hne
    exact verify_tamper_field xs b _ ys hv rfl rfl rfl
      (fun heq => hne ((blockHashOf_inj heq).2.2.2.2.2.1))
  · intro xs p b ys v hv hne
    simp only [validChain, Bool.and_eq_true] at hv
    obtain ⟨hh, hl⟩ := hv
    have hhp : hashesOk (xs ++ [p]) = true := by
      rw [hashesOk_iff]
      intro x hx
      apply hashesOk_iff.mp hh
      rcases List.mem_append.mp hx with h1 | h2
      · exact List.mem_append.mpr (Or.inl h1)
      · have hx2 : x = p := List.mem_singleton.mp h2
        subst hx2
        exact List.mem_append.mpr (Or.inr (List.mem_cons_self x _))
    have hlp : linksOk (xs ++ [p]) = true :=
      linksOk_prefix_concat xs p (b :: ys) hl
    have := verify_link_tamper p { b with previous_block_hash := v } ys hne
      xs hhp hlp
    exact this

/-- Witness for C2: tampering with block 2's `data_hash` in the concrete
two-block chain yields `HashMismatch` at block 2; tampering with its
`previous_block_hash` yields `LinkMismatch` at block 2. -/
theorem C2_tamper_detection_witness :
    verifyBlocks ([block1] ++ { block2 with data_hash := 999 } :: []) =
      .Violation block2.block_id .HashMismatch ∧
    verifyBlocks ([] ++ block1 :: { block2 with previous_block_hash := 5 } :: []) =
      .Violation block2.block_id .LinkMismatch :=
  ⟨C2_tamper_detection.1 [block1] block2 [] 999 (by decide) (by decide),
   C2_tamper_detection.2.2.2 [] block1 block2 [] 5 (by decide) (by decide)⟩

theorem contiguousFrom_concat :
    ∀ (l : List AnchorRecord) (e0 : Nat) (a : AnchorRecord),
    contiguousFrom e0 l = true →
    a.range_start = ((l.getLast?).map AnchorRecord.range_end).getD e0 + 1 →
    a.range_start ≤ a.range_end →
    contiguousFrom e0 (l ++ [a]) = true
  | [], e0, a, _, hs, hr => by
    simp only [List.getLast?_nil, Option.map_none', Option.getD_none] at hs
    simp only [List.nil_append, contiguousFrom, Bool.and_eq_true, beq_iff_eq,
      decide_eq_true_eq]
    exact ⟨⟨hs, by omega⟩, trivial⟩
  | x :: xs, e0, a, h, hs, hr => by
    simp only [contiguousFrom, Bool.and_eq_true] at h
    obtain ⟨⟨h1, h2⟩, h3⟩ := h
    simp only [List.cons_append, contiguousFrom, Bool.and_eq_true]
    refine ⟨⟨h1, h2⟩, ?_⟩
    apply contiguousFrom_concat xs x.range_end a h3 ?_ hr
    cases xs with
    | nil => simpa using hs
    | cons y ys => simpa [List.getLast?_cons_cons] using hs

theorem tick_contiguous (c : Chain) (anchors : List AnchorRecord)
    (res : Option Nat) (now : Nat)
    (h : contiguousFrom 0 anchors = true) :
    contiguousFrom 0 (tick c anchors res now) = true := by
  unfold tick
  split
  · exact h
  · rename_i hgt
    cases res with
    | none => exact h
    | some ref =>
      apply contiguousFrom_concat anchors 0 _ h rfl ?_
      simp only []
      omega

theorem anchorReachable_contiguous {st : List AnchorRecord}
    (h : AnchorReachable st) : contiguousFrom 0 st = true := by
  induction h with
  | nil => rfl
  | step anchors c res now hr ih => exact tick_contiguous c anchors res now ih

theorem contiguous_mem : ∀ (l : List AnchorRecord) (e : Nat),
    contiguousFrom e l = true →
    ∀ x ∈ l, e < x.range_start ∧ x.range_start ≤ x.range_end
  | [], _, _, x, hx => by simp at hx
  | a :: rest, e, h, x, hx => by
    simp only [contiguousFrom, Bool.and_eq_true, beq_iff_eq,
      decide_eq_true_eq] at h
    obtain ⟨⟨h1, h2⟩, h3⟩ := h
    rcases List.mem_cons.mp hx with rfl | hx2
    · exact ⟨by omega, by omega⟩
    · obtain ⟨ha, hb⟩ := contiguous_mem rest a.range_end h3 x hx2
      exact ⟨by omega, hb⟩

theorem contiguous_lt : ∀ (l : List AnchorRecord) (e : Nat),
    contiguousFrom e l = true →
    ∀ i j (hi : i < l.length) (hj : j < l.length), i < j →
    (l.get ⟨i, hi⟩).range_end < (l.get ⟨j, hj⟩).range_start
  | [], _, _, i, _, hi, _, _ => by simp at hi
  | a :: rest, e, h, i, j, hi, hj, hij => by
    simp only [contiguousFrom, Bool.and_eq_true, beq_iff_eq,
      decide_eq_true_eq] at h
    obtain ⟨⟨h1, h2⟩, h3⟩ := h
    cases i with
    | zero =>
      cases j with
      | zero => omega
      | succ j2 =>
        have hj2 : j2 < rest.length := by simpa using hj
        obtain ⟨ha, hb⟩ := contiguous_mem rest a.range_end h3
          (rest.get ⟨j2, hj2⟩) (rest.get_mem _ _)
        simp only [List.get_eq_getElem, List.getElem_cons_zero,
          List.getElem_cons_succ]
        simp only [List.get_eq_getElem] at ha
        exact ha
    | succ i2 =>
      cases j with
      | zero => omega
      | succ j2 =>
        have := contiguous_lt rest a.range_end h3 i2 j2 (by simpa using hi)
          (by simpa using hj) (by omega)
        simpa using this

theorem tick_none_eq (c : Chain) (anchors : List AnchorRecord) (now : Nat) :
    tick c anchors none now = anchors := by
  unfold tick
  split <;> rfl

theorem tick_length_le (c : Chain) (anchors : List AnchorRecord)
    (res : Option Nat) (now : Nat) :
    (tick c anchors res now).length ≤ anchors.length + 1 := by
  unfold tick
  split
  · omega
  · cases res
    · simp
    · simp

theorem tick_success_idem (c : Chain) (anchors : List AnchorRecord)
    (ref now : Nat) (res2 : Option Nat) (now2 : Nat) :
    tick c (tick c anchors (some ref) now) res2 now2 =
      tick c anchors (some ref) now := by
  by_cases hle : lastBlockId c ≤ lastAnchoredEnd anchors
  · have h1 : tick c anchors (some ref) now = anchors := by
      unfold tick
      rw [if_pos hle]
    rw [h1]
    unfold tick
    rw [if_pos hle]
  · have h1 : tick c anchors (some ref) now =
        anchors ++
          [({ range_start := lastAnchoredEnd anchors + 1,
              range_end := lastBlockId c,
              batch_hash := batchHash c (lastAnchoredEnd anchors + 1)
                (lastBlockId c),
              external_reference := ref, anchored_at := now })] := by
      unfold tick
      rw [if_neg hle]
    rw [h1]
    unfold tick
    rw [if_pos (by simp [lastAnchoredEnd, List.getLast?_concat])]

/-- C7: a tick immediately after a successful tick against an unchanged
chain is a no-op; two consecutive ticks on an unchanged chain persist at
most one AnchorRecord; and across all reachable scheduler states no two
AnchorRecords cover a common block id — no block is anchored twice and
no two ranges overlap. -/
theorem C7_anchor_idempotence :
    (∀ (c : Chain) (anchors : List AnchorRecord) (ref now : Nat)
       (res2 : Option Nat) (now2 : Nat),
      tick c (tick c anchors (some ref) now) res2 now2 =
        tick c anchors (some ref) now) ∧
    (∀ (c : Chain) (anchors : List AnchorRecord) (res1 : Option Nat)
       (now1 : Nat) (res2 : Option Nat) (now2 : Nat),
      (tick c (tick c anchors res1 now1) res2 now2).length ≤
        anchors.length + 1) ∧
    (∀ st, AnchorReachable st →
      ∀ i j (hi : i < st.length) (hj : j < st.length), i ≠ j → ∀ k,
        (st.get ⟨i, hi⟩).range_start ≤ k ∧ k ≤ (st.get ⟨i, hi⟩).range_end →
        ¬ ((st.get ⟨j, hj⟩).range_start ≤ k ∧
           k ≤ (st.get ⟨j, hj⟩).range_end)) := by
  refine ⟨tick_success_idem, ?_, ?_⟩
  · intro c anchors res1 now1 res2 now2
    cases res1 with
    | none =>
      rw [tick_none_eq]
      exact tick_length_le c anchors res2 now2
    | some ref =>
      rw [tick_success_idem]
      exact tick_length_le c anchors (some ref) now1
  · intro st h i j hi hj hne k hki hkj
    have hc := anchorReachable_contiguous h
    obtain ⟨hA, hB⟩ := hki
    obtain ⟨hC, hD⟩ := hkj
    rcases Nat.lt_trichotomy i j with hij | hij | hij
    · have := contiguous_lt st 0 hc i j hi hj hij
      omega
    · exact hne hij
    · have := contiguous_lt st 0 hc j i hj hi hij
      omega

/-- Witness for C7: a failed tick after a successful tick of the concrete
two-block chain changes nothing, and the two anchor records produced by
two successful ticks (one per sealed block) cover disjoint ranges: block
id 1 is not covered by the second record. -/
theorem C7_anchor_idempotence_witness :
    (tick (buildChain [inpA, inpB])
        (tick (buildChain [inpA, inpB]) [] (some 5) 100) none 200 =
      tick (buildChain [inpA, inpB]) [] (some 5) 100) ∧
    ¬ (((tick (buildChain [inpA, inpB])
          (tick (buildChain [inpA]) [] (some 5) 100)
          (some 6) 200).get ⟨1, by decide⟩).range_start ≤ 1 ∧
       1 ≤ ((tick (buildChain [inpA, inpB])
          (tick (buildChain [inpA]) [] (some 5) 100)
          (some 6) 200).get ⟨1, by decide⟩).range_end) :=
  ⟨C7_anchor_idempotence.1 (buildChain [inpA, inpB]) [] 5 100 none 200,
   C7_anchor_idempotence.2.2
     (tick (buildChain [inpA, inpB]) (tick (buildChain [inpA]) [] (some 5) 100)
       (some 6) 200)
     (.step _ (buildChain [inpA, inpB]) (some 6) 200
       (.step [] (buildChain [inpA]) (some 5) 100 .nil))
     0 1 (by decide) (by decide) (by decide) 1 ⟨by decide, by decide⟩⟩

/-- C8: `recordSeal` is idempotent — recording an already-recorded block
id again with the same hash is a no-op leaving the ledger unchanged, and
recording a different hash for it signals `ConflictingSeal` without
overwriting the existing record. -/
theorem C8_recordSeal_idempotent :
    ∀ (l : PrivateLedger) (id h h0 : Nat), querySeal l id = some h0 →
      (h0 = h → recordSeal l id h = .ok l) ∧
      (h0 ≠ h → recordSeal l id h = .error .ConflictingSeal) := by
  intro l id h h0 hq
  constructor
  · intro he
    simp [recordSeal, hq, he]
  · intro he
    simp [recordSeal, hq, he]

/-- Witness for C8: on a one-record ledger, re-recording hash 42 for
block 1 is a no-op and recording hash 43 for block 1 conflicts. -/
theorem C8_recordSeal_idempotent_witness :
    recordSeal [(1, 42)] 1 42 = .ok [(1, 42)] ∧
    recordSeal [(1, 42)] 1 43 = .error .ConflictingSeal :=
  ⟨(C8_recordSeal_idempotent [(1, 42)] 1 42 42 (by decide)).1 rfl,
   (C8_recordSeal_idempotent [(1, 42)] 1 43 42 (by decide)).2 (by decide)⟩

/-- C4 counterexample: contrary to the claim, the persisted layout of
schema.sql contains no anchor table: no table is keyed by `range_start`
or carries the AnchorRecord columns (`range_start`, `range_end`,
`batch_hash`, `external_reference`, `anchored_at`). -/
theorem C4_no_anchor_table : schema.tables.any isAnchorTable = false := by
  decide

/-- C4 (amended): the persisted layout contains the block table
`blockchain_ledger` keyed by `block_id` with columns matching §3's Block
fields, a unique constraint on `block_hash` and an index supporting
ordered range scans by `block_id`; but it contains no anchor table keyed
by `range_start` with the AnchorRecord columns, so no AnchorRecord is
persisted in the schema. -/
theorem C4_persisted_layout :
    schema.tables.contains blockchainLedgerTable = true ∧
    blockchainLedgerTable.primaryKey = "block_id" ∧
    blockchainLedgerTable.columns = ["block_id", "entity_id", "entity_type",
      "data_hash", "previous_block_hash", "timestamp", "nonce",
      "block_hash"] ∧
    blockchainLedgerTable.uniqueCols.contains "block_hash" = true ∧
    schema.indexes.contains ("blockchain_ledger", "block_id") = true ∧
    schema.tables.any isAnchorTable = false :=
  ⟨by decide, rfl, rfl, by decide, by decide, by decide⟩

/-- C6: any two distinct blocks of a sealed chain have different
`block_hash` values — the hash is a pure function of the other fields
and is globally unique across the chain — and the persisted
`blockchain_ledger` table declares a UNIQUE constraint on `block_hash`. -/
theorem C6_block_hash_unique :
    (∀ c : Chain, Sealed c → ∀ i j (hi : i < c.length) (hj : j < c.length),
      i ≠ j →
      (c.get ⟨i, hi⟩).block_hash ≠ (c.get ⟨j, hj⟩).block_hash) ∧
    (∀ b1 b2 : Block, b1.block_id = b2.block_id →
      b1.entity_id = b2.entity_id → b1.entity_type = b2.entity_type →
      b1.data_hash = b2.data_hash →
      b1.previous_block_hash = b2.previous_block_hash →
      b1.timestamp = b2.timestamp → b1.nonce = b2.nonce →
      blockHashOf b1 = blockHashOf b2) ∧
    blockchainLedgerTable.uniqueCols.contains "block_hash" = true := by
  refine ⟨?_, ?_, by decide⟩
  · intro c hc i j hi hj hij heq
    have hh := sealed_hashesOk hc
    have hids := (reachable_invariant (sealed_reachable hc)).2.1
    have hbi : blockHashOf (c.get ⟨i, hi⟩) = (c.get ⟨i, hi⟩).block_hash :=
      hashesOk_iff.mp hh _ (c.get_mem _ _)
    have hbj : blockHashOf (c.get ⟨j, hj⟩) = (c.get ⟨j, hj⟩).block_hash :=
      hashesOk_iff.mp hh _ (c.get_mem _ _)
    have heq2 : blockHashOf (c.get ⟨i, hi⟩) = blockHashOf (c.get ⟨j, hj⟩) := by
      rw [hbi, hbj, heq]
    have hid := (blockHashOf_inj heq2).1
    rw [hids i hi, hids j hj] at hid
    omega
  · intro b1 b2 h1 h2 h3 h4 h5 h6 h7
    simp only [blockHashOf, h1, h2, h3, h4, h5, h6, h7]

/-- Witness for C6: the two blocks of the concrete sealed chain have
different stored hashes. -/
theorem C6_block_hash_unique_witness :
    ((buildChain [inpA, inpB]).get ⟨0, by decide⟩).block_hash ≠
      ((buildChain [inpA, inpB]).get ⟨1, by decide⟩).block_hash :=
  C6_block_hash_unique.1 (buildChain [inpA, inpB])
    (sealed_buildChain [inpA, inpB]) 0 1 (by decide) (by decide) (by decide)

/-- C9: every sealed block carries the nonce drawn for its seal, and two
blocks agreeing on `entity_id`, `entity_type`, `data_hash`,
`previous_block_hash` and `timestamp` but differing in nonce never
collide: their block hashes differ. -/
theorem C9_nonce_no_collision :
    (∀ (c : Chain) (inp : SealInput), (mkBlock c inp).nonce = inp.nonce) ∧
    (∀ b1 b2 : Block, b1.entity_id = b2.entity_id →
      b1.entity_type = b2.entity_type → b1.data_hash = b2.data_hash →
      b1.previous_block_hash = b2.previous_block_hash →
      b1.timestamp = b2.timestamp → b1.nonce ≠ b2.nonce →
      blockHashOf b1 ≠ blockHashOf b2) :=
  ⟨fun _ _ => rfl,
   fun _ _ _ _ _ _ _ hn heq => hn (blockHashOf_inj heq).2.2.2.2.2.2⟩

/-- Witness for C9: two concrete blocks identical except for the nonce
have different recomputed hashes. -/
theorem C9_nonce_no_collision_witness :
    blockHashOf blockN1 ≠ blockHashOf blockN2 :=
  C9_nonce_no_collision.2 blockN1 blockN2 rfl rfl rfl rfl rfl (by decide)

/-- C10: when a user delete succeeds, every tax return and notice of
assessment of that user and every income slip referencing one of the
user's returns is cascade-deleted, while `audit_logs` and
`blockchain_ledger` rows are untouched: `entity_id` carries no foreign
key, so every sealed block survives the deletion of the entity it
seals. -/
theorem C10_delete_cascade :
    ∀ (db : Db) (uid : Nat) (db2 : Db), deleteUser db uid = some db2 →
      (∀ r ∈ db2.tax_returns, r.user_id ≠ some uid) ∧
      (∀ r ∈ db2.notice_of_assessments, r.user_id ≠ some uid) ∧
      (∀ s ∈ db2.income_slips, ∀ r ∈ db.tax_returns,
        r.user_id = some uid → s.tax_return_id ≠ some r.id) ∧
      db2.blockchain_ledger = db.blockchain_ledger ∧
      db2.audit_logs = db.audit_logs := by
  intro db uid db2 hdel
  simp only [deleteUser] at hdel
  split at hdel
  · exact absurd hdel (by simp)
  · rename_i hfk
    injection hdel with hdb
    subst hdb
    refine ⟨?_, ?_, ?_, rfl, rfl⟩
    · intro r hr
      have := (List.mem_filter.mp hr).2
      simpa using this
    · intro r hr
      have := (List.mem_filter.mp hr).2
      simpa using this
    · intro s hs r hr hu
      have hpred := (List.mem_filter.mp hs).2
      simp only [Bool.not_eq_eq_eq_not, Bool.not_true, List.any_eq_false,
        beq_eq_false_iff_ne, ne_eq] at hpred
      intro hsr
      exact hpred r (List.mem_filter.mpr ⟨hr, by simp [hu]⟩) (by simpa using hsr)

/-- Witness for C10: deleting user 1 from the concrete database removes
the return, the assessment and the slip but leaves the single sealed
block in place. -/
theorem C10_delete_cascade_witness :
    dbWafter.blockchain_ledger = dbW.blockchain_ledger :=
  (C10_delete_cascade dbW 1 dbWafter (by decide)).2.2.2.1

end Ledger
